import Mathlib

/-!
Verification of the brown-noise generator (`main.go` and the earlier
tone-free variant of the same program).

Modelling conventions:
* Go `float64` arithmetic is modelled by exact rational arithmetic (`ℚ`);
  the specified properties concern the real-number algebra of the filter,
  not bit-level rounding of IEEE doubles.
* `r.Float64()` returns a value in `[0, 1)`; a run of the fill function
  consumes one such value per frame, so a fill over a buffer is modelled
  as a function of the list `us : List ℚ` of successive generator outputs.
* `math.Sin (2 * π * pitch * tonePhase / sampleRate)` is transcendental;
  it is modelled by an uninterpreted parameter
  `sine : ℚ → ℕ → ℚ` applied to the pitch and the phase counter, exactly
  where the source calls `math.Sin`.  `tonePhase` is a `float64` that starts
  at `0` and is only ever incremented by `1`, so it is modelled as a `ℕ`.
* Go's conversion `int16(f)` (as compiled by gc on amd64/arm64 for values
  of magnitude below `2^63`) truncates the float toward zero and keeps the
  low 16 bits in two's complement: this is `wrap16 (truncQ f)` below.
* The frame written by `binary.LittleEndian.PutUint32 (u<<16|u)` carries the
  same 16-bit sample on both stereo channels, so a buffer is modelled as the
  list of per-frame `int16` values.
-/

/-- `sampleRate` constant from main.go. -/
def sampleRate : ℕ := 44100

/-- `channelNum` constant from main.go. -/
def channelNum : ℕ := 2

/-- `bitDepthInBytes` constant from main.go. -/
def bitDepthInBytes : ℕ := 2

/-- Truncation of a rational toward zero, the rounding used by Go's
float-to-integer conversion. -/
def truncQ (q : ℚ) : ℤ := if 0 ≤ q then ⌊q⌋ else ⌈q⌉

/-- Reinterpretation of an integer's low 16 bits as a two's complement
`int16`: the result always lies in `[-32768, 32767]`. -/
def wrap16 (n : ℤ) : ℤ := (n + 32768) % 65536 - 32768

/-- Go's `int16(f)` conversion applied to a (rational model of a) float:
truncate toward zero, then wrap to 16 bits.  This is what the source line
`s := int16(sample * 32767 * vol)` performs. -/
def goInt16OfRat (q : ℚ) : ℤ := wrap16 (truncQ q)

/-- The quantizer the specification describes (§4.4): round to nearest,
then clamp to the `int16` range.  Stated from the spec's words, for
comparison with `goInt16OfRat`, the conversion the source performs. -/
def specQuantize (q : ℚ) : ℤ := max (-32768) (min 32767 (round q))

/-- The mutable synthesis state of main.go: the package-level variables
`lastSample` (filter memory) and `tonePhase` (tone phase accumulator). -/
structure GenState where
  lastSample : ℚ
  tonePhase : ℕ
deriving DecidableEq, Repr

/-- Zero values of the package-level variables at process start. -/
def initialState : GenState := ⟨0, 0⟩

/-- The EMA update from main.go line 103 written on the raw generator
output `u`: `lastSample = alpha*(2*u-1) + (1-alpha)*lastSample`. -/
def emaNext (alpha last u : ℚ) : ℚ := alpha * (2 * u - 1) + (1 - alpha) * last

/-- One iteration of the loop body of `generateBrownNoise` (main.go
lines 100-113): draw `x = 2*u - 1`, update the EMA, add the tone when
`pitch > 0`, advance the phase, and store `int16(sample * 32767 * vol)`.
Returns the stored frame value and the updated state. -/
def stepSample (sine : ℚ → ℕ → ℚ) (alpha pitch vol : ℚ) (st : GenState) (u : ℚ) :
    ℤ × GenState :=
  let y := emaNext alpha st.lastSample u
  let sample := if 0 < pitch then y + sine pitch st.tonePhase else y
  (goInt16OfRat (sample * 32767 * vol), ⟨y, st.tonePhase + 1⟩)

/-- `generateBrownNoise` from main.go: fills a buffer frame-by-frame,
threading the package-level state.  `us` is the list of successive
`r.Float64()` outputs, one per frame. -/
def generateBrownNoise (sine : ℚ → ℕ → ℚ) (alpha pitch vol : ℚ)
    (us : List ℚ) (st : GenState) : List ℤ × GenState :=
  match us with
  | [] => ([], st)
  | u :: rest =>
    let p := stepSample sine alpha pitch vol st u
    let q := generateBrownNoise sine alpha pitch vol rest p.2
    (p.1 :: q.1, q.2)

/-- `generateBrownNoise` from the earlier tone-free variant of the program
(the version without `pitch`/`vol` parameters): the same EMA update and
`s := int16(lastSample * 32767)` store, with no tone injector and no phase
accumulator. -/
def generateBrownNoiseNoTone (alpha : ℚ) (us : List ℚ) (last : ℚ) :
    List ℤ × ℚ :=
  match us with
  | [] => ([], last)
  | u :: rest =>
    let y := emaNext alpha last u
    let q := generateBrownNoiseNoTone alpha rest y
    (goInt16OfRat (y * 32767) :: q.1, q.2)

/-- The `(alpha, pitch, volume)` triple held in the three atomic values. -/
structure Config where
  alpha : ℚ
  pitch : ℚ
  volume : ℚ
deriving DecidableEq, Repr

/-- The defaults stored by `init()` in main.go. -/
def defaultConfig : Config := ⟨1 / 100, 0, 1⟩

/-- The form handler of `startServer` (main.go lines 118-135): for each of
the three fields, if `FormValue` is non-empty and `strconv.ParseFloat`
succeeds, the parsed value is stored unconditionally; otherwise the stored
value is left unchanged.  `parse` models `strconv.ParseFloat` (`none` for a
parse error); an absent field is the empty string, as `FormValue` returns. -/
def handleForm (parse : String → Option ℚ) (aS pS vS : String) (c : Config) :
    Config :=
  let c1 := if aS = "" then c else
    match parse aS with
    | some val => { c with alpha := val }
    | none => c
  let c2 := if pS = "" then c1 else
    match parse pS with
    | some val => { c1 with pitch := val }
    | none => c1
  if vS = "" then c2 else
    match parse vS with
    | some val => { c2 with volume := val }
    | none => c2

/-- The producer goroutine body (main.go lines 77-82): load the current
config snapshot and fill a buffer with it. -/
def producerFill (sine : ℚ → ℕ → ℚ) (c : Config) (us : List ℚ)
    (st : GenState) : List ℤ × GenState :=
  generateBrownNoise sine c.alpha c.pitch c.volume us st

/-- A concrete instance of the abstract sine parameter, used to exercise
the definitions at concrete inputs. -/
def sineZero : ℚ → ℕ → ℚ := fun _ _ => 0

/-- Concrete stand-in for `strconv.ParseFloat`, used to exercise the form
handler at concrete inputs: parses the single string "2". -/
def parseTwo : String → Option ℚ := fun s => if s = "2" then some 2 else none

/-- Filling over a concatenated stream equals filling the first part and
then the second from the state the first part left behind: the buffer
boundary neither resets nor alters the threaded state. -/
theorem generateBrownNoise_append (sine : ℚ → ℕ → ℚ) (alpha pitch vol : ℚ)
    (us₁ us₂ : List ℚ) (st : GenState) :
    generateBrownNoise sine alpha pitch vol (us₁ ++ us₂) st =
      ((generateBrownNoise sine alpha pitch vol us₁ st).1 ++
        (generateBrownNoise sine alpha pitch vol us₂
          (generateBrownNoise sine alpha pitch vol us₁ st).2).1,
       (generateBrownNoise sine alpha pitch vol us₂
          (generateBrownNoise sine alpha pitch vol us₁ st).2).2) := by
  induction us₁ generalizing st with
  | nil => simp [generateBrownNoise]
  | cons u rest ih => simp [generateBrownNoise, ih]

/-- The state before frame `n` of a fill (for `n = us.length`, the state
after the fill). -/
def stateAfter (sine : ℚ → ℕ → ℚ) (alpha pitch vol : ℚ)
    (us : List ℚ) (st : GenState) (n : ℕ) : GenState :=
  (generateBrownNoise sine alpha pitch vol (us.take n) st).2

theorem stateAfter_zero (sine : ℚ → ℕ → ℚ) (alpha pitch vol : ℚ)
    (us : List ℚ) (st : GenState) :
    stateAfter sine alpha pitch vol us st 0 = st := rfl

theorem stateAfter_cons (sine : ℚ → ℕ → ℚ) (alpha pitch vol : ℚ)
    (u : ℚ) (rest : List ℚ) (st : GenState) (n : ℕ) :
    stateAfter sine alpha pitch vol (u :: rest) st (n + 1) =
      stateAfter sine alpha pitch vol rest
        (stepSample sine alpha pitch vol st u).2 n := by
  simp [stateAfter, generateBrownNoise]

/-- The state trace obeys the loop body: the state before frame `n + 1` is
the loop body applied to the state before frame `n` and the `n`-th
generator output. -/
theorem stateAfter_succ (sine : ℚ → ℕ → ℚ) (alpha pitch vol : ℚ)
    (us : List ℚ) (st : GenState) (n : ℕ) (hn : n < us.length) :
    stateAfter sine alpha pitch vol us st (n + 1) =
      (stepSample sine alpha pitch vol
        (stateAfter sine alpha pitch vol us st n) (us.getD n 0)).2 := by
  induction us generalizing st n with
  | nil => simp at hn
  | cons u rest ih =>
    cases n with
    | zero => simp [stateAfter_cons, stateAfter_zero]
    | succ m =>
      rw [stateAfter_cons, ih _ _ (by simpa using hn), stateAfter_cons]
      simp

/-- The state after the whole fill is the final entry of the trace. -/
theorem stateAfter_length (sine : ℚ → ℕ → ℚ) (alpha pitch vol : ℚ)
    (us : List ℚ) (st : GenState) :
    stateAfter sine alpha pitch vol us st us.length =
      (generateBrownNoise sine alpha pitch vol us st).2 := by
  simp [stateAfter]

/-- The `n`-th stored frame is the loop body applied to the state before
frame `n` and the `n`-th generator output. -/
theorem sample_at (sine : ℚ → ℕ → ℚ) (alpha pitch vol : ℚ)
    (us : List ℚ) (st : GenState) (n : ℕ) (hn : n < us.length) :
    (generateBrownNoise sine alpha pitch vol us st).1.getD n 0 =
      (stepSample sine alpha pitch vol
        (stateAfter sine alpha pitch vol us st n) (us.getD n 0)).1 := by
  induction us generalizing st n with
  | nil => simp at hn
  | cons u rest ih =>
    cases n with
    | zero => simp [generateBrownNoise, stateAfter_zero]
    | succ m =>
      rw [stateAfter_cons]
      simpa [generateBrownNoise] using ih _ _ (by simpa using hn)

/-- A convex EMA step keeps the filter memory inside `[-1, 1]` when the
raw generator output lies in `[0, 1)` and `alpha` lies in `(0, 1]`. -/
theorem abs_emaNext_le_one (alpha last u : ℚ) (ha : 0 < alpha) (ha1 : alpha ≤ 1)
    (hl : |last| ≤ 1) (hu0 : 0 ≤ u) (hu1 : u < 1) :
    |emaNext alpha last u| ≤ 1 := by
  rw [abs_le] at hl ⊢
  unfold emaNext
  constructor <;> nlinarith [hl.1, hl.2]

/-- The filter memory stays in `[-1, 1]` across a whole fill. -/
theorem abs_lastSample_le_one (sine : ℚ → ℕ → ℚ) (alpha pitch vol : ℚ)
    (us : List ℚ) (st : GenState) (ha : 0 < alpha) (ha1 : alpha ≤ 1)
    (hst : |st.lastSample| ≤ 1) (hu : ∀ u ∈ us, 0 ≤ u ∧ u < 1) :
    |(generateBrownNoise sine alpha pitch vol us st).2.lastSample| ≤ 1 := by
  induction us generalizing st with
  | nil => simpa [generateBrownNoise]
  | cons u rest ih =>
    have hu0 := hu u (by simp)
    exact ih _ (abs_emaNext_le_one alpha st.lastSample u ha ha1 hst hu0.1 hu0.2)
      (fun x hx => hu x (by simp [hx]))

/-- Truncation toward zero stays within a symmetric integer bound. -/
theorem truncQ_mem (q : ℚ) (m : ℤ) (h1 : -(m : ℚ) ≤ q) (h2 : q ≤ (m : ℚ)) :
    -m ≤ truncQ q ∧ truncQ q ≤ m := by
  have hm0 : (0 : ℚ) ≤ (m : ℚ) := by linarith
  have hm : (0 : ℤ) ≤ m := by exact_mod_cast hm0
  by_cases h : (0 : ℚ) ≤ q
  · simp only [truncQ, if_pos h]
    have hf : 0 ≤ ⌊q⌋ := Int.floor_nonneg.mpr h
    have hf2 : ⌊q⌋ ≤ ⌊(m : ℚ)⌋ := Int.floor_le_floor h2
    simp only [Int.floor_intCast] at hf2
    exact ⟨by omega, hf2⟩
  · simp only [truncQ, if_neg h]
    push_neg at h
    have hc : ⌈q⌉ ≤ 0 := Int.ceil_le.mpr (by norm_num; linarith)
    have hc3 : ⌈((-m : ℤ) : ℚ)⌉ ≤ ⌈q⌉ := Int.ceil_le_ceil (by push_cast; linarith)
    simp only [Int.ceil_intCast] at hc3
    exact ⟨hc3, by omega⟩

/-- `wrap16` is the identity exactly on the `int16` range. -/
theorem wrap16_eq_self (n : ℤ) (h1 : -32768 ≤ n) (h2 : n ≤ 32767) :
    wrap16 n = n := by
  unfold wrap16
  rw [Int.emod_eq_of_lt (by omega) (by omega)]
  omega

/-- `wrap16` always lands in the `int16` range. -/
theorem wrap16_mem (n : ℤ) : -32768 ≤ wrap16 n ∧ wrap16 n ≤ 32767 := by
  unfold wrap16
  have h1 : 0 ≤ (n + 32768) % 65536 := Int.emod_nonneg _ (by norm_num)
  have h2 : (n + 32768) % 65536 < 65536 := Int.emod_lt_of_pos _ (by norm_num)
  omega

/-- With `pitch = 0` and `vol = 1`, the fill of main.go produces the same
stored frames and the same filter memory as the tone-free variant of the
program. -/
theorem noTone_equiv (sine : ℚ → ℕ → ℚ) (alpha : ℚ) (us : List ℚ)
    (st : GenState) :
    (generateBrownNoise sine alpha 0 1 us st).1 =
        (generateBrownNoiseNoTone alpha us st.lastSample).1 ∧
      (generateBrownNoise sine alpha 0 1 us st).2.lastSample =
        (generateBrownNoiseNoTone alpha us st.lastSample).2 := by
  induction us generalizing st with
  | nil => simp [generateBrownNoise, generateBrownNoiseNoTone]
  | cons u rest ih =>
    simp only [generateBrownNoise, generateBrownNoiseNoTone, stepSample]
    have := ih ⟨emaNext alpha st.lastSample u, st.tonePhase + 1⟩
    simp only [lt_self_iff_false, if_false] at this ⊢
    exact ⟨by rw [mul_one]; exact congrArg₂ _ rfl this.1, this.2⟩

/-- `poolSize` constant from main.go: the number of buffers cycling through
the two channels. -/
def poolSize : ℕ := 4

/-- Joint state of the two buffer channels of main.go (`bufferPool` and
`audioCh`), the producer, and the consumer.  Buffers are identified by
index; a filled buffer carries the ghost sequence number of the fill that
produced it, `nextSeq` counts fills, and `observed` records, in order, the
sequence numbers of the buffers the consumer has dequeued. -/
structure PipeState where
  freeQ : List ℕ
  filledQ : List (ℕ × ℕ)
  nextSeq : ℕ
  observed : List ℕ
deriving DecidableEq, Repr

/-- Interleaving semantics of the two goroutines of main.go: `produce`
(lines 75-84) dequeues the oldest free buffer, fills it with the next
sequence number, and enqueues it on the filled channel; `consume`
(lines 88-94) dequeues the oldest filled buffer, observes it (writes it to
the player), and recycles it to the free channel.  Go channels are FIFO, so
each dequeue takes the head and each enqueue appends.  A goroutine blocks
(no step is enabled) when its source channel is empty. -/
inductive PipeStep : PipeState → PipeState → Prop
  | produce (b : ℕ) (free : List ℕ) (filled : List (ℕ × ℕ)) (n : ℕ)
      (obs : List ℕ) :
      PipeStep ⟨b :: free, filled, n, obs⟩ ⟨free, filled ++ [(b, n)], n + 1, obs⟩
  | consume (free : List ℕ) (b s : ℕ) (filled : List (ℕ × ℕ)) (n : ℕ)
      (obs : List ℕ) :
      PipeStep ⟨free, (b, s) :: filled, n, obs⟩ ⟨free ++ [b], filled, n, obs ++ [s]⟩

/-- Startup state of the pipeline (main.go lines 69-71): all `poolSize`
buffers pre-allocated on the free channel, nothing filled, nothing played. -/
def pipeInit (pool : ℕ) : PipeState := ⟨List.range pool, [], 0, []⟩

/-- States the pipeline can reach from startup by interleaving the two
goroutines. -/
def PipeReachable (pool : ℕ) (s : PipeState) : Prop :=
  Relation.ReflTransGen PipeStep (pipeInit pool) s

/-- Pipeline invariant: the sequence numbers already observed, followed by
those still queued on the filled channel, form a strictly increasing list,
all below the producer's counter. -/
def pipeInv (s : PipeState) : Prop :=
  List.Sorted (· < ·) (s.observed ++ s.filledQ.map Prod.snd) ∧
    ∀ k ∈ s.observed ++ s.filledQ.map Prod.snd, k < s.nextSeq

theorem pipeInv_init (pool : ℕ) : pipeInv (pipeInit pool) := by
  simp [pipeInv, pipeInit]

theorem pipeInv_step {s t : PipeState} (h : PipeStep s t) (hs : pipeInv s) :
    pipeInv t := by
  obtain ⟨hsort, hlt⟩ := hs
  cases h with
  | produce b free filled n obs =>
    simp only [pipeInv, List.map_append, List.map_cons, List.map_nil] at *
    constructor
    · rw [← List.append_assoc]
      have hp : List.Pairwise (fun x1 x2 => x1 < x2)
          ((obs ++ List.map Prod.snd filled) ++ [n]) := by
        rw [List.pairwise_append]
        refine ⟨hsort, List.pairwise_singleton _ _, ?_⟩
        intro x hx y hy
        rw [List.mem_singleton] at hy
        subst hy
        exact hlt x hx
      exact hp
    · intro k hk
      rw [← List.append_assoc, List.mem_append] at hk
      rcases hk with hk | hk
      · exact Nat.lt_succ_of_lt (hlt k hk)
      · rw [List.mem_singleton] at hk
        omega
  | consume free b sq filled n obs =>
    simp only [pipeInv, List.map_cons] at *
    have hperm : (obs ++ [sq]) ++ List.map Prod.snd filled =
        obs ++ sq :: List.map Prod.snd filled := by simp
    exact ⟨by rw [hperm]; exact hsort,
      fun k hk => hlt k (by rw [hperm] at hk; exact hk)⟩

theorem pipeInv_reachable {pool : ℕ} {s : PipeState}
    (h : PipeReachable pool s) : pipeInv s := by
  induction h with
  | refl => exact pipeInv_init pool
  | tail _ hstep ih => exact pipeInv_step hstep ih

theorem getD_mem_of_lt {α : Type} (l : List α) (n : ℕ) (d : α)
    (h : n < l.length) : l.getD n d ∈ l := by
  rw [List.getD_eq_getElem l d h]
  exact List.getElem_mem h

/-- Every frame a fill stores is a `wrap16` image, hence in the `int16`
range. -/
theorem fill_samples_range (sine : ℚ → ℕ → ℚ) (alpha pitch vol : ℚ)
    (us : List ℚ) (st : GenState) :
    ∀ s ∈ (generateBrownNoise sine alpha pitch vol us st).1,
      -32768 ≤ s ∧ s ≤ 32767 := by
  induction us generalizing st with
  | nil => simp [generateBrownNoise]
  | cons u rest ih =>
    intro s hs
    simp only [generateBrownNoise, List.mem_cons] at hs
    rcases hs with hs | hs
    · subst hs
      exact wrap16_mem _
    · exact ih _ s hs

/-- With no tone, a bounded filter memory, a generator output in `[0,1)`
and `0 ≤ vol ≤ 1`, the scaled sample stays within `±32767`, so Go's
conversion reduces to plain truncation with no wrap. -/
theorem noWrap_single (alpha vol last u : ℚ) (ha : 0 < alpha)
    (ha1 : alpha ≤ 1) (hv0 : 0 ≤ vol) (hv1 : vol ≤ 1) (hl : |last| ≤ 1)
    (hu0 : 0 ≤ u) (hu1 : u < 1) :
    -(32767 : ℚ) ≤ emaNext alpha last u * 32767 * vol ∧
      emaNext alpha last u * 32767 * vol ≤ 32767 ∧
      goInt16OfRat (emaNext alpha last u * 32767 * vol) =
        truncQ (emaNext alpha last u * 32767 * vol) ∧
      -32767 ≤ truncQ (emaNext alpha last u * 32767 * vol) ∧
      truncQ (emaNext alpha last u * 32767 * vol) ≤ 32767 := by
  have hy1 : |emaNext alpha last u| ≤ 1 :=
    abs_emaNext_le_one alpha last u ha ha1 hl hu0 hu1
  have hyv : |emaNext alpha last u * vol| ≤ 1 := by
    rw [abs_mul, abs_of_nonneg hv0]
    exact mul_le_one₀ hy1 hv0 hv1
  have hb := abs_le.mp hyv
  have hlow : -(32767 : ℚ) ≤ emaNext alpha last u * 32767 * vol := by
    nlinarith [hb.1]
  have hhigh : emaNext alpha last u * 32767 * vol ≤ 32767 := by
    nlinarith [hb.2]
  have htr := truncQ_mem (emaNext alpha last u * 32767 * vol) 32767
    (by push_cast; linarith) (by push_cast; linarith)
  refine ⟨hlow, hhigh, ?_, htr.1, htr.2⟩
  unfold goInt16OfRat
  exact wrap16_eq_self _ (by omega) (by omega)

/-- C1 (amended): for every frame of a buffer fill, the stored `int16` is
obtained from the filter output by scaling with `32767` and the volume,
then truncating toward zero and wrapping to the low 16 bits in two's
complement — no rounding to nearest and no clamping is performed.  When
`pitch = 0`, `0 ≤ volume ≤ 1`, `alpha ∈ (0,1]`, the incoming filter memory
lies in `[-1,1]` and the generator outputs lie in `[0,1)`, the scaled
value stays within `[-32767, 32767]` and the stored value equals the plain
truncation, so no wrap-around occurs there. -/
theorem c1_quantization (sine : ℚ → ℕ → ℚ) (alpha vol : ℚ) (us : List ℚ)
    (st : GenState) (n : ℕ) (hn : n < us.length) (ha : 0 < alpha)
    (ha1 : alpha ≤ 1) (hv0 : 0 ≤ vol) (hv1 : vol ≤ 1)
    (hst : |st.lastSample| ≤ 1) (hu : ∀ u ∈ us, 0 ≤ u ∧ u < 1) :
    (generateBrownNoise sine alpha 0 vol us st).1.getD n 0 =
        wrap16 (truncQ (emaNext alpha
          (stateAfter sine alpha 0 vol us st n).lastSample (us.getD n 0) *
            32767 * vol)) ∧
      -(32767 : ℚ) ≤ emaNext alpha
          (stateAfter sine alpha 0 vol us st n).lastSample (us.getD n 0) *
            32767 * vol ∧
      emaNext alpha (stateAfter sine alpha 0 vol us st n).lastSample
          (us.getD n 0) * 32767 * vol ≤ 32767 ∧
      (generateBrownNoise sine alpha 0 vol us st).1.getD n 0 =
        truncQ (emaNext alpha
          (stateAfter sine alpha 0 vol us st n).lastSample (us.getD n 0) *
            32767 * vol) := by
  have hlast : |(stateAfter sine alpha 0 vol us st n).lastSample| ≤ 1 :=
    abs_lastSample_le_one sine alpha 0 vol (us.take n) st ha ha1 hst
      (fun x hx => hu x (List.take_subset n us hx))
  have hun := hu (us.getD n 0) (getD_mem_of_lt us n 0 hn)
  have hcore := noWrap_single alpha vol
    (stateAfter sine alpha 0 vol us st n).lastSample (us.getD n 0)
    ha ha1 hv0 hv1 hlast hun.1 hun.2
  have hsamp : (generateBrownNoise sine alpha 0 vol us st).1.getD n 0 =
      goInt16OfRat (emaNext alpha
        (stateAfter sine alpha 0 vol us st n).lastSample (us.getD n 0) *
          32767 * vol) := by
    rw [sample_at sine alpha 0 vol us st n hn]
    simp [stepSample]
  refine ⟨hsamp, hcore.1, hcore.2.1, ?_⟩
  rw [hsamp]
  exact hcore.2.2.1

/-- Witness for `c1_quantization` at `alpha = 1`, `vol = 1`, one frame. -/
theorem c1_quantization_witness :
    (generateBrownNoise sineZero 1 0 1 [1/2] initialState).1.getD 0 0 =
        wrap16 (truncQ (emaNext 1
          (stateAfter sineZero 1 0 1 [1/2] initialState 0).lastSample
          ([(1 : ℚ)/2].getD 0 0) * 32767 * 1)) ∧
      -(32767 : ℚ) ≤ emaNext 1
          (stateAfter sineZero 1 0 1 [1/2] initialState 0).lastSample
          ([(1 : ℚ)/2].getD 0 0) * 32767 * 1 ∧
      emaNext 1 (stateAfter sineZero 1 0 1 [1/2] initialState 0).lastSample
          ([(1 : ℚ)/2].getD 0 0) * 32767 * 1 ≤ 32767 ∧
      (generateBrownNoise sineZero 1 0 1 [1/2] initialState).1.getD 0 0 =
        truncQ (emaNext 1
          (stateAfter sineZero 1 0 1 [1/2] initialState 0).lastSample
          ([(1 : ℚ)/2].getD 0 0) * 32767 * 1) :=
  c1_quantization sineZero 1 1 [1/2] initialState 0 (by decide) (by norm_num)
    (by norm_num) (by norm_num) (by norm_num) (by norm_num [initialState])
    (by norm_num)

/-- C1 counterexample: at `alpha = 1`, `pitch = 0`, `volume = 2` and a
generator output of `9/10`, the scaled sample is `52427.2`; the code
stores `-13109`, the wrap-around image of the out-of-range truncation
`52427`, while the round-and-clamp quantizer of the spec yields `32767`:
the stored `int16` does result from wrap-around of an out-of-range value. -/
theorem c1_counterexample :
    (generateBrownNoise sineZero 1 0 2 [9/10] initialState).1.getD 0 0 =
        -13109 ∧
      truncQ (emaNext 1 initialState.lastSample (9/10) * 32767 * 2) =
        52427 ∧
      wrap16 52427 = -13109 ∧
      specQuantize (emaNext 1 initialState.lastSample (9/10) * 32767 * 2) =
        32767 ∧
      (-13109 : ℤ) ≠ 32767 := by
  have hprod : emaNext 1 initialState.lastSample (9/10) * 32767 * 2 =
      262136/5 := by
    norm_num [emaNext, initialState]
  have hfl : truncQ ((262136 : ℚ)/5) = 52427 := by
    rw [truncQ, if_pos (by norm_num)]
    norm_num
  have hw : wrap16 52427 = -13109 := by decide
  have hround : specQuantize ((262136 : ℚ)/5) = 32767 := by
    rw [specQuantize, round_eq]
    norm_num
  have hg : (generateBrownNoise sineZero 1 0 2 [9/10] initialState).1.getD 0 0 =
      goInt16OfRat (emaNext 1 initialState.lastSample (9/10) * 32767 * 2) := by
    simp [generateBrownNoise, stepSample]
  refine ⟨?_, by rw [hprod]; exact hfl, hw, by rw [hprod]; exact hround,
    by decide⟩
  rw [hg, goInt16OfRat, hprod, hfl]
  exact hw

/-- C4 (amended): every `int16` the fill stores lies in `[-32768, 32767]`
— the wrap keeps it there for any `alpha`, `pitch` and `volume`; the
further guarantee that the pre-conversion scaled float itself stays within
the representable range (no overflow in the conversion) holds when
additionally no tone is injected, the volume is in `[0, 1]`, the incoming
filter memory is in `[-1, 1]` and the generator outputs are in `[0, 1)`. -/
theorem c4_sample_range (sine : ℚ → ℕ → ℚ) (alpha pitch vol : ℚ)
    (us : List ℚ) (st : GenState) (ha : 0 < alpha) (ha1 : alpha ≤ 1) :
    (∀ s ∈ (generateBrownNoise sine alpha pitch vol us st).1,
        -32768 ≤ s ∧ s ≤ 32767) ∧
      (pitch = 0 → 0 ≤ vol → vol ≤ 1 → |st.lastSample| ≤ 1 →
        (∀ u ∈ us, 0 ≤ u ∧ u < 1) → ∀ n, n < us.length →
          -(32767 : ℚ) ≤ emaNext alpha
              (stateAfter sine alpha pitch vol us st n).lastSample
              (us.getD n 0) * 32767 * vol ∧
            emaNext alpha
              (stateAfter sine alpha pitch vol us st n).lastSample
              (us.getD n 0) * 32767 * vol ≤ 32767) := by
  refine ⟨fill_samples_range sine alpha pitch vol us st, ?_⟩
  intro hp hv0 hv1 hst hu n hn
  subst hp
  have hlast : |(stateAfter sine alpha 0 vol us st n).lastSample| ≤ 1 :=
    abs_lastSample_le_one sine alpha 0 vol (us.take n) st ha ha1 hst
      (fun x hx => hu x (List.take_subset n us hx))
  have hun := hu (us.getD n 0) (getD_mem_of_lt us n 0 hn)
  have hcore := noWrap_single alpha vol
    (stateAfter sine alpha 0 vol us st n).lastSample (us.getD n 0)
    ha ha1 hv0 hv1 hlast hun.1 hun.2
  exact ⟨hcore.1, hcore.2.1⟩

/-- The fill stores exactly one frame per generator output. -/
theorem fill_length (sine : ℚ → ℕ → ℚ) (alpha pitch vol : ℚ)
    (us : List ℚ) (st : GenState) :
    (generateBrownNoise sine alpha pitch vol us st).1.length =
      us.length := by
  induction us generalizing st with
  | nil => rfl
  | cons u rest ih => simp [generateBrownNoise, ih]

/-- Witness for `c4_sample_range` at the default `alpha = 1/100`. -/
theorem c4_sample_range_witness :
    (-32768 ≤ (generateBrownNoise sineZero (1/100) 0 1 [1/2]
          initialState).1.getD 0 0 ∧
        (generateBrownNoise sineZero (1/100) 0 1 [1/2]
          initialState).1.getD 0 0 ≤ 32767) ∧
      -(32767 : ℚ) ≤ emaNext (1/100)
          (stateAfter sineZero (1/100) 0 1 [1/2]
            initialState 0).lastSample
          (([1/2] : List ℚ).getD 0 0) * 32767 * 1 ∧
        emaNext (1/100)
          (stateAfter sineZero (1/100) 0 1 [1/2]
            initialState 0).lastSample
          (([1/2] : List ℚ).getD 0 0) * 32767 * 1 ≤ 32767 := by
  have h := c4_sample_range sineZero (1/100) 0 1 [1/2] initialState
    (by norm_num) (by norm_num)
  refine ⟨h.1 _ (getD_mem_of_lt _ 0 0 ?_), h.2 rfl (by norm_num)
    (by norm_num) (by norm_num [initialState]) (by norm_num) 0 (by decide)⟩
  rw [fill_length]
  decide

/-- C4 counterexample: at `alpha = 1 ∈ (0,1]`, `pitch = 0`, `volume = 4`
and a generator output of `3/4`, the pre-conversion scaled value is
`65534`, beyond the `int16` range: the conversion overflows (the stored
frame is its wrap-around image `-2`), refuting the no-overflow part of the
claim, even though the stored value itself is in range. -/
theorem c4_counterexample :
    (0 : ℚ) < 1 ∧ (1 : ℚ) ≤ 1 ∧
      emaNext 1 initialState.lastSample (3/4) * 32767 * 4 = 65534 ∧
      ¬ emaNext 1 initialState.lastSample (3/4) * 32767 * 4 ≤ 32767 ∧
      truncQ (emaNext 1 initialState.lastSample (3/4) * 32767 * 4) = 65534 ∧
      wrap16 65534 = -2 ∧
      (generateBrownNoise sineZero 1 0 4 [3/4] initialState).1.getD 0 0 =
        -2 := by
  have hprod : emaNext 1 initialState.lastSample (3/4) * 32767 * 4 =
      65534 := by
    norm_num [emaNext, initialState]
  have hfl : truncQ ((65534 : ℚ)) = 65534 := by
    rw [truncQ, if_pos (by norm_num)]
    norm_num
  have hw : wrap16 65534 = -2 := by decide
  have hg : (generateBrownNoise sineZero 1 0 4 [3/4] initialState).1.getD 0 0 =
      goInt16OfRat (emaNext 1 initialState.lastSample (3/4) * 32767 * 4) := by
    simp [generateBrownNoise, stepSample]
  refine ⟨by norm_num, by norm_num, hprod, by rw [hprod]; norm_num,
    by rw [hprod]; exact hfl, hw, ?_⟩
  rw [hg, goInt16OfRat, hprod, hfl]
  exact hw

/-- C2 (amended): the Control Surface performs no validation of `alpha`:
any value that parses — including values outside `(0,1]` — is stored
unchanged at the Config boundary, and the producer then runs the EMA
recursion of the next fills with exactly that stored value. -/
theorem c2_no_validation (parse : String → Option ℚ) (aS : String)
    (c : Config) (v : ℚ) (hne : aS ≠ "") (hp : parse aS = some v) :
    (handleForm parse aS "" "" c).alpha = v ∧
      ∀ (sine : ℚ → ℕ → ℚ) (us : List ℚ) (st : GenState),
        producerFill sine (handleForm parse aS "" "" c) us st =
          generateBrownNoise sine v c.pitch c.volume us st := by
  have h1 : handleForm parse aS "" "" c = { c with alpha := v } := by
    simp [handleForm, hne, hp]
  exact ⟨by rw [h1], fun sine us st => by rw [h1]; rfl⟩

/-- Witness for `c2_no_validation`: the out-of-range value `2` parses, is
stored, and drives the fill. -/
theorem c2_no_validation_witness :
    (handleForm parseTwo "2" "" "" defaultConfig).alpha = 2 ∧
      producerFill sineZero (handleForm parseTwo "2" "" "" defaultConfig)
          [3/4] initialState =
        generateBrownNoise sineZero 2 defaultConfig.pitch
          defaultConfig.volume [3/4] initialState := by
  have h := c2_no_validation parseTwo "2" defaultConfig 2 (by decide)
    (by norm_num [parseTwo])
  exact ⟨h.1, h.2 sineZero [3/4] initialState⟩

/-- C2 counterexample: the Control Surface accepts `alpha = 2`, outside
`(0,1]`; the stored value is not rejected or clamped, and the very next
fill runs the EMA recursion with it (one step from filter memory `0` and
generator output `3/4` yields `2·(1/2) + (1−2)·0 = 1`, not the `1/2` that
any `alpha ∈ (0,1]` at most could produce at this input). -/
theorem c2_counterexample :
    (handleForm parseTwo "2" "" "" defaultConfig).alpha = 2 ∧
      ¬ (0 < (handleForm parseTwo "2" "" "" defaultConfig).alpha ∧
          (handleForm parseTwo "2" "" "" defaultConfig).alpha ≤ 1) ∧
      (producerFill sineZero (handleForm parseTwo "2" "" "" defaultConfig)
          [3/4] initialState).2.lastSample = 1 ∧
      emaNext 2 initialState.lastSample (3/4) = 1 := by
  have h1 : handleForm parseTwo "2" "" "" defaultConfig =
      { defaultConfig with alpha := 2 } := by
    simp [handleForm, parseTwo]
  refine ⟨by rw [h1], by rw [h1]; norm_num, ?_, by norm_num [emaNext, initialState]⟩
  rw [h1]
  simp [producerFill, generateBrownNoise, stepSample, emaNext, initialState,
    defaultConfig]
  norm_num

/-- C3: at every frame of every fill, the threaded filter output obeys
`y[n] = alpha·x[n] + (1−alpha)·y[n−1]`, where `x[n] = 2·u[n] − 1` is a
fresh generator sample lying in `[-1, 1)` and `y[−1]` is the pre-call
state; the trace starts at the pre-call state and ends at the state the
fill returns. -/
theorem c3_ema_recursion (sine : ℚ → ℕ → ℚ) (alpha pitch vol : ℚ)
    (us : List ℚ) (st : GenState) (n : ℕ) (hn : n < us.length)
    (hu : ∀ u ∈ us, 0 ≤ u ∧ u < 1) :
    (stateAfter sine alpha pitch vol us st (n + 1)).lastSample =
        alpha * (2 * us.getD n 0 - 1) +
          (1 - alpha) *
            (stateAfter sine alpha pitch vol us st n).lastSample ∧
      stateAfter sine alpha pitch vol us st 0 = st ∧
      -1 ≤ 2 * us.getD n 0 - 1 ∧ 2 * us.getD n 0 - 1 < 1 ∧
      stateAfter sine alpha pitch vol us st us.length =
        (generateBrownNoise sine alpha pitch vol us st).2 := by
  have h := stateAfter_succ sine alpha pitch vol us st n hn
  have hun := hu (us.getD n 0) (getD_mem_of_lt us n 0 hn)
  refine ⟨?_, stateAfter_zero sine alpha pitch vol us st,
    by linarith [hun.1], by linarith [hun.2],
    stateAfter_length sine alpha pitch vol us st⟩
  rw [h]
  simp [stepSample, emaNext]

/-- Witness for `c3_ema_recursion` at the default `alpha`, frame 0. -/
theorem c3_ema_recursion_witness :
    (stateAfter sineZero (1/100) 0 1 [1/2, 3/4] initialState
          (0 + 1)).lastSample =
        (1/100) * (2 * ([1/2, 3/4] : List ℚ).getD 0 0 - 1) +
          (1 - 1/100) *
            (stateAfter sineZero (1/100) 0 1 [1/2, 3/4] initialState
              0).lastSample ∧
      stateAfter sineZero (1/100) 0 1 [1/2, 3/4] initialState 0 =
        initialState ∧
      -1 ≤ 2 * ([1/2, 3/4] : List ℚ).getD 0 0 - 1 ∧
      2 * ([1/2, 3/4] : List ℚ).getD 0 0 - 1 < 1 ∧
      stateAfter sineZero (1/100) 0 1 [1/2, 3/4] initialState
          ([1/2, 3/4] : List ℚ).length =
        (generateBrownNoise sineZero (1/100) 0 1 [1/2, 3/4]
          initialState).2 :=
  c3_ema_recursion sineZero (1/100) 0 1 [1/2, 3/4] initialState 0
    (by decide) (by norm_num)

/-- C5: with `pitch > 0` the value quantized at frame `n` is the EMA
output plus the sine tone at the current phase; with `pitch = 0` it is
exactly the EMA output, and (at volume 1) the fill's stored frames
coincide with those of the tone-free variant of the program; the phase
accumulator advances by exactly 1 per frame, also when `pitch = 0`; and a
fill over a concatenated stream threads state — including the phase —
across the buffer boundary without any reset. -/
theorem c5_tone_injection (sine : ℚ → ℕ → ℚ) (alpha pitch vol : ℚ)
    (us : List ℚ) (st : GenState) :
    (∀ n, n < us.length →
      (0 < pitch →
        (generateBrownNoise sine alpha pitch vol us st).1.getD n 0 =
          goInt16OfRat
            ((emaNext alpha
                (stateAfter sine alpha pitch vol us st n).lastSample
                (us.getD n 0) +
              sine pitch
                (stateAfter sine alpha pitch vol us st n).tonePhase) *
              32767 * vol)) ∧
      (pitch = 0 →
        (generateBrownNoise sine alpha pitch vol us st).1.getD n 0 =
          goInt16OfRat
            (emaNext alpha
              (stateAfter sine alpha pitch vol us st n).lastSample
              (us.getD n 0) * 32767 * vol)) ∧
      (stateAfter sine alpha pitch vol us st (n + 1)).tonePhase =
        (stateAfter sine alpha pitch vol us st n).tonePhase + 1) ∧
    (pitch = 0 → vol = 1 →
      (generateBrownNoise sine alpha pitch vol us st).1 =
        (generateBrownNoiseNoTone alpha us st.lastSample).1) ∧
    (∀ us₂, generateBrownNoise sine alpha pitch vol (us ++ us₂) st =
      ((generateBrownNoise sine alpha pitch vol us st).1 ++
        (generateBrownNoise sine alpha pitch vol us₂
          (generateBrownNoise sine alpha pitch vol us st).2).1,
       (generateBrownNoise sine alpha pitch vol us₂
          (generateBrownNoise sine alpha pitch vol us st).2).2)) := by
  refine ⟨?_, ?_,
    fun us₂ => generateBrownNoise_append sine alpha pitch vol us us₂ st⟩
  · intro n hn
    refine ⟨?_, ?_, ?_⟩
    · intro hp
      rw [sample_at sine alpha pitch vol us st n hn]
      simp [stepSample, if_pos hp]
    · intro hp
      subst hp
      rw [sample_at sine alpha 0 vol us st n hn]
      simp [stepSample]
    · rw [stateAfter_succ sine alpha pitch vol us st n hn]
      simp [stepSample]
  · intro hp hv
    subst hp
    subst hv
    exact (noTone_equiv sine alpha us st).1

/-- Witness for `c5_tone_injection`: one frame at `pitch = 1`, and one
phase increment. -/
theorem c5_tone_injection_witness :
    (stateAfter sineZero (1/100) 1 1 [1/2] initialState (0 + 1)).tonePhase =
        (stateAfter sineZero (1/100) 1 1 [1/2] initialState 0).tonePhase +
          1 ∧
      (generateBrownNoise sineZero (1/100) 1 1 [1/2] initialState).1.getD
          0 0 =
        goInt16OfRat
          ((emaNext (1/100)
              (stateAfter sineZero (1/100) 1 1 [1/2]
                initialState 0).lastSample (([1/2] : List ℚ).getD 0 0) +
            sineZero 1
              (stateAfter sineZero (1/100) 1 1 [1/2]
                initialState 0).tonePhase) * 32767 * 1) :=
  ⟨((c5_tone_injection sineZero (1/100) 1 1 [1/2] initialState).1 0
      (by decide)).2.2,
   ((c5_tone_injection sineZero (1/100) 1 1 [1/2] initialState).1 0
      (by decide)).1 (by norm_num)⟩

/-- C6: the fill is a pure function of the generator stream, the initial
state and the parameter snapshot — two runs over equal seeds (equal
generator streams), equal initial states and equal `(alpha, pitch,
volume)` produce bit-identical buffers and final states. -/
theorem c6_deterministic (sine : ℚ → ℕ → ℚ) (a₁ a₂ p₁ p₂ v₁ v₂ : ℚ)
    (us₁ us₂ : List ℚ) (st₁ st₂ : GenState) (hus : us₁ = us₂)
    (hst : st₁ = st₂) (ha : a₁ = a₂) (hp : p₁ = p₂) (hv : v₁ = v₂) :
    generateBrownNoise sine a₁ p₁ v₁ us₁ st₁ =
      generateBrownNoise sine a₂ p₂ v₂ us₂ st₂ := by
  subst hus
  subst hst
  subst ha
  subst hp
  subst hv
  rfl

/-- Witness for `c6_deterministic` at concrete equal inputs. -/
theorem c6_deterministic_witness :
    generateBrownNoise sineZero (1/100) 0 1 [1/2] initialState =
      generateBrownNoise sineZero (1/100) 0 1 [1/2] initialState :=
  c6_deterministic sineZero (1/100) (1/100) 0 0 1 1 [1/2] [1/2]
    initialState initialState rfl rfl rfl rfl rfl

/-- C10: the filter state a fill leaves behind is independent of the pitch
and volume parameters: tone injection and volume scaling happen after the
EMA update and never feed back into the recursion. -/
theorem c10_state_independent_of_tone_volume (sine : ℚ → ℕ → ℚ)
    (alpha p₁ v₁ p₂ v₂ : ℚ) (us : List ℚ) (st : GenState) :
    (generateBrownNoise sine alpha p₁ v₁ us st).2 =
      (generateBrownNoise sine alpha p₂ v₂ us st).2 := by
  induction us generalizing st with
  | nil => rfl
  | cons u rest ih =>
    simp only [generateBrownNoise]
    exact ih ((stepSample sine alpha p₁ v₁ st u).2)

/-- C7: the filter memory starts at 0 at process start; with
`alpha ∈ (0,1]`, incoming memory in `[-1,1]` and generator outputs in
`[0,1)` it is again in `[-1,1]` after any fill; consecutive fills thread
the state — nothing is reset at a buffer boundary — and the first EMA
update of the next fill uses exactly the final EMA output of the previous
fill as `y[n−1]`. -/
theorem c7_state_continuity (sine : ℚ → ℕ → ℚ) (alpha pitch vol : ℚ)
    (us₁ us₂ : List ℚ) (u : ℚ) (rest : List ℚ) (st : GenState)
    (ha : 0 < alpha) (ha1 : alpha ≤ 1) (hst : |st.lastSample| ≤ 1)
    (hu : ∀ x ∈ us₁, 0 ≤ x ∧ x < 1) :
    initialState.lastSample = 0 ∧
      |(generateBrownNoise sine alpha pitch vol us₁ st).2.lastSample| ≤
        1 ∧
      generateBrownNoise sine alpha pitch vol (us₁ ++ us₂) st =
        ((generateBrownNoise sine alpha pitch vol us₁ st).1 ++
          (generateBrownNoise sine alpha pitch vol us₂
            (generateBrownNoise sine alpha pitch vol us₁ st).2).1,
         (generateBrownNoise sine alpha pitch vol us₂
            (generateBrownNoise sine alpha pitch vol us₁ st).2).2) ∧
      (us₂ = u :: rest →
        (stateAfter sine alpha pitch vol us₂
            (generateBrownNoise sine alpha pitch vol us₁ st).2
            1).lastSample =
          emaNext alpha
            (generateBrownNoise sine alpha pitch vol us₁ st).2.lastSample
            u) := by
  refine ⟨rfl,
    abs_lastSample_le_one sine alpha pitch vol us₁ st ha ha1 hst hu,
    generateBrownNoise_append sine alpha pitch vol us₁ us₂ st, ?_⟩
  intro h2
  subst h2
  rw [stateAfter_succ sine alpha pitch vol (u :: rest) _ 0 (by simp)]
  simp [stepSample, stateAfter_zero]

/-- Witness for `c7_state_continuity` across two one-frame fills. -/
theorem c7_state_continuity_witness :
    initialState.lastSample = 0 ∧
      |(generateBrownNoise sineZero (1/100) 0 1 [1/2]
          initialState).2.lastSample| ≤ 1 ∧
      generateBrownNoise sineZero (1/100) 0 1 ([1/2] ++ [3/4])
          initialState =
        ((generateBrownNoise sineZero (1/100) 0 1 [1/2] initialState).1 ++
          (generateBrownNoise sineZero (1/100) 0 1 [3/4]
            (generateBrownNoise sineZero (1/100) 0 1 [1/2]
              initialState).2).1,
         (generateBrownNoise sineZero (1/100) 0 1 [3/4]
            (generateBrownNoise sineZero (1/100) 0 1 [1/2]
              initialState).2).2) ∧
      (stateAfter sineZero (1/100) 0 1 [3/4]
          (generateBrownNoise sineZero (1/100) 0 1 [1/2]
            initialState).2 1).lastSample =
        emaNext (1/100)
          (generateBrownNoise sineZero (1/100) 0 1 [1/2]
            initialState).2.lastSample (3/4) := by
  have h := c7_state_continuity sineZero (1/100) 0 1 [1/2] [3/4] (3/4) []
    initialState (by norm_num) (by norm_num) (by norm_num [initialState])
    (by norm_num)
  exact ⟨h.1, h.2.1, h.2.2.1, h.2.2.2 rfl⟩

/-- The alpha field the form handler stores depends only on the alpha form
value: absent or unparsable leaves it, a parsed value replaces it. -/
theorem handleForm_alpha (parse : String → Option ℚ) (aS pS vS : String)
    (c : Config) :
    (handleForm parse aS pS vS c).alpha =
      (if aS = "" then c.alpha else
        match parse aS with
        | some v => v
        | none => c.alpha) := by
  by_cases ha : aS = "" <;> by_cases hp : pS = "" <;>
    by_cases hv : vS = "" <;> cases hA : parse aS <;>
    cases hP : parse pS <;> cases hV : parse vS <;>
    simp [handleForm, ha, hp, hv, hA, hP, hV]

/-- The pitch field the form handler stores depends only on the pitch form
value. -/
theorem handleForm_pitch (parse : String → Option ℚ) (aS pS vS : String)
    (c : Config) :
    (handleForm parse aS pS vS c).pitch =
      (if pS = "" then c.pitch else
        match parse pS with
        | some v => v
        | none => c.pitch) := by
  by_cases ha : aS = "" <;> by_cases hp : pS = "" <;>
    by_cases hv : vS = "" <;> cases hA : parse aS <;>
    cases hP : parse pS <;> cases hV : parse vS <;>
    simp [handleForm, ha, hp, hv, hA, hP, hV]

/-- The volume field the form handler stores depends only on the volume
form value. -/
theorem handleForm_volume (parse : String → Option ℚ) (aS pS vS : String)
    (c : Config) :
    (handleForm parse aS pS vS c).volume =
      (if vS = "" then c.volume else
        match parse vS with
        | some v => v
        | none => c.volume) := by
  by_cases ha : aS = "" <;> by_cases hp : pS = "" <;>
    by_cases hv : vS = "" <;> cases hA : parse aS <;>
    cases hP : parse pS <;> cases hV : parse vS <;>
    simp [handleForm, ha, hp, hv, hA, hP, hV]

/-- C8: for every Control Surface request, a field that is missing (empty)
or fails to parse leaves the corresponding stored Config value unchanged;
a field that parses replaces exactly that one stored value — each stored
field depends only on its own form value, so the other two are unchanged.
The handler is a total function, so no request crashes it. -/
theorem c8_form_update_policy (parse : String → Option ℚ)
    (aS pS vS : String) (c : Config) :
    ((aS = "" ∨ parse aS = none) →
        (handleForm parse aS pS vS c).alpha = c.alpha) ∧
      ((pS = "" ∨ parse pS = none) →
        (handleForm parse aS pS vS c).pitch = c.pitch) ∧
      ((vS = "" ∨ parse vS = none) →
        (handleForm parse aS pS vS c).volume = c.volume) ∧
      (∀ v, aS ≠ "" → parse aS = some v →
        (handleForm parse aS pS vS c).alpha = v) ∧
      (∀ v, pS ≠ "" → parse pS = some v →
        (handleForm parse aS pS vS c).pitch = v) ∧
      (∀ v, vS ≠ "" → parse vS = some v →
        (handleForm parse aS pS vS c).volume = v) := by
  refine ⟨?_, ?_, ?_, ?_, ?_, ?_⟩
  · intro h
    rw [handleForm_alpha]
    by_cases ha : aS = ""
    · rw [if_pos ha]
    · rcases h with h | h
      · exact absurd h ha
      · rw [if_neg ha, h]
  · intro h
    rw [handleForm_pitch]
    by_cases hp : pS = ""
    · rw [if_pos hp]
    · rcases h with h | h
      · exact absurd h hp
      · rw [if_neg hp, h]
  · intro h
    rw [handleForm_volume]
    by_cases hv : vS = ""
    · rw [if_pos hv]
    · rcases h with h | h
      · exact absurd h hv
      · rw [if_neg hv, h]
  · intro v hne hp
    rw [handleForm_alpha, if_neg hne, hp]
  · intro v hne hp
    rw [handleForm_pitch, if_neg hne, hp]
  · intro v hne hp
    rw [handleForm_volume, if_neg hne, hp]

/-- Witness for `c8_form_update_policy`: an alpha-only request against the
default Config updates alpha and leaves pitch and volume unchanged. -/
theorem c8_form_update_policy_witness :
    (handleForm parseTwo "2" "" "" defaultConfig).pitch =
        defaultConfig.pitch ∧
      (handleForm parseTwo "2" "" "" defaultConfig).volume =
        defaultConfig.volume ∧
      (handleForm parseTwo "2" "" "" defaultConfig).alpha = 2 := by
  have h := c8_form_update_policy parseTwo "2" "" "" defaultConfig
  exact ⟨h.2.1 (Or.inl rfl), h.2.2.1 (Or.inl rfl),
    h.2.2.2.1 2 (by decide) (by norm_num [parseTwo])⟩

/-- C9: in every state the pipeline can reach under any interleaving of
the producer and consumer goroutines, the sequence of generation numbers
the consumer has observed is strictly increasing — the consumer never
dequeues a buffer generated earlier than one it already observed. -/
theorem c9_fifo_order (pool : ℕ) (s : PipeState)
    (h : PipeReachable pool s) :
    List.Sorted (· < ·) s.observed ∧
      ∀ i j, i < j → j < s.observed.length →
        ¬ s.observed.getD j 0 < s.observed.getD i 0 := by
  have hinv := pipeInv_reachable h
  have hsorted : List.Sorted (· < ·) s.observed :=
    hinv.1.sublist (List.sublist_append_left _ _)
  refine ⟨hsorted, ?_⟩
  intro i j hij hj hcon
  have hi : i < s.observed.length := lt_trans hij hj
  have hlt : s.observed.get ⟨i, hi⟩ < s.observed.get ⟨j, hj⟩ :=
    List.Sorted.rel_get_of_lt hsorted hij
  rw [List.getD_eq_getElem _ _ hi, List.getD_eq_getElem _ _ hj] at hcon
  simp only [List.get_eq_getElem] at hlt
  omega

/-- Witness for `c9_fifo_order`: the state reached from startup by two
produce steps and two consume steps; its two observations come out in
generation order. -/
theorem c9_fifo_order_witness :
    List.Sorted (· < ·)
        (PipeState.mk [2, 3, 0, 1] [] 2 [0, 1]).observed ∧
      ¬ (PipeState.mk [2, 3, 0, 1] [] 2 [0, 1]).observed.getD 1 0 <
          (PipeState.mk [2, 3, 0, 1] [] 2 [0, 1]).observed.getD 0 0 := by
  have h1 : PipeStep (pipeInit 4) ⟨[1, 2, 3], [(0, 0)], 1, []⟩ :=
    PipeStep.produce 0 [1, 2, 3] [] 0 []
  have h2 : PipeStep ⟨[1, 2, 3], [(0, 0)], 1, []⟩
      ⟨[2, 3], [(0, 0), (1, 1)], 2, []⟩ :=
    PipeStep.produce 1 [2, 3] [(0, 0)] 1 []
  have h3 : PipeStep ⟨[2, 3], [(0, 0), (1, 1)], 2, []⟩
      ⟨[2, 3, 0], [(1, 1)], 2, [0]⟩ :=
    PipeStep.consume [2, 3] 0 0 [(1, 1)] 2 []
  have h4 : PipeStep ⟨[2, 3, 0], [(1, 1)], 2, [0]⟩
      ⟨[2, 3, 0, 1], [], 2, [0, 1]⟩ :=
    PipeStep.consume [2, 3, 0] 1 1 [] 2 [0]
  have h := c9_fifo_order 4 ⟨[2, 3, 0, 1], [], 2, [0, 1]⟩
    (Relation.ReflTransGen.tail (Relation.ReflTransGen.tail
      (Relation.ReflTransGen.tail
        (Relation.ReflTransGen.tail Relation.ReflTransGen.refl h1) h2) h3)
      h4)
  exact ⟨h.1, h.2 0 1 (by decide) (by decide)⟩
